import Mathlib

/-!
Shallow embedding of `src/ori_finder.py` from the plasmid-maker repository.

Sequences are `List Char` (Python `str`), window sizes and coordinates that
Python treats as signed integers are `Int`, and Python features that can
raise (`range` with step 0, `min` of an empty list) are modelled with
`Except String`.  `pyRange`, `pyIdx` and `pySlice` reproduce the semantics
of Python `range` and slicing (including clamping and negative indices).
-/

namespace PlasmidMaker

/-- Number of elements and contents of Python `range(a, b, c)` for `c ≠ 0`;
`pyRange a b 0` is unused (the caller raises first). -/
def pyRange (a b c : Int) : List Int :=
  if 0 < c then
    (List.range ((b - a + c - 1) / c).toNat).map (fun (i : Nat) => a + (i : Int) * c)
  else if c < 0 then
    (List.range ((a - b + (-c) - 1) / (-c)).toNat).map (fun (i : Nat) => a + (i : Int) * c)
  else []

/-- Normalization of one slice endpoint, as Python does for `s[a:b]`:
negative indices count from the end (clamped at 0), nonnegative ones are
clamped at the length. -/
def pyIdx (L : Nat) (i : Int) : Nat :=
  if i < 0 then (i + L).toNat else min i.toNat L

/-- Python slice `s[a:b]` (step 1). -/
def pySlice (s : List Char) (a b : Int) : List Char :=
  (s.drop (pyIdx s.length a)).take (pyIdx s.length b - pyIdx s.length a)

/-- Python slice `s[a:b]` for nonnegative endpoints. -/
def pySliceN (s : List Char) (a b : Nat) : List Char :=
  (s.drop a).take (b - a)

/-- Embedding of `compute_gc_skew` (src/ori_finder.py:4-36).  The skew of a
window is `G count - C count`; `window_size = 0` makes Python's `range`
raise `ValueError` before the loop body runs. -/
def compute_gc_skew (sequence : List Char) (window_size : Int) :
    Except String (List Int) :=
  if window_size = 0 then
    .error "ValueError: range() arg 3 must not be zero"
  else
    .ok ((pyRange 0 ((sequence.length : Int) - window_size + 1) window_size).map
      (fun i =>
        let window := pySlice sequence i (i + window_size)
        let g := window.count 'G'
        let c := window.count 'C'
        if g + c = 0 then (0 : Int) else (g : Int) - (c : Int)))

/-- The running-total loop of `cumulative_gc_skew` (src/ori_finder.py:51-56). -/
def cumulative_from (total : Int) : List Int → List Int
  | [] => []
  | v :: rest => (total + v) :: cumulative_from (total + v) rest

/-- Embedding of `cumulative_gc_skew` (src/ori_finder.py:38-58). -/
def cumulative_gc_skew (skew_values : List Int) : List Int :=
  cumulative_from 0 skew_values

/-- Embedding of `find_ori_position` (src/ori_finder.py:60-77).
`min(cumulative)` raises `ValueError` on an empty list; `.index` then finds
the first occurrence of the minimum. -/
def find_ori_position (sequence : List Char) (window_size : Int) :
    Except String (Int × Int) :=
  match compute_gc_skew sequence window_size with
  | .error e => .error e
  | .ok skew =>
    let cumulative := cumulative_gc_skew skew
    match cumulative.min? with
    | none => .error "ValueError: min() arg is an empty sequence"
    | some m =>
      let min_index := cumulative.indexOf m
      let ori_start := (min_index : Int) * window_size
      .ok (ori_start, ori_start + window_size)

/-- Embedding of `extract_ori_region` (src/ori_finder.py:79-94).
Python `//` is floor division, hence `Int.fdiv`. -/
def extract_ori_region (sequence : List Char) (window_size flank : Int) :
    Except String (List Char × Int × Int) :=
  match find_ori_position sequence window_size with
  | .error e => .error e
  | .ok (ori_start, _ori_end) =>
    let ori_center := ori_start + window_size.fdiv 2
    let start := max 0 (ori_center - flank)
    let stop := min (sequence.length : Int) (ori_center + flank)
    .ok (pySlice sequence start stop, start, stop)

/-- One `kmer_counts[kmer] += 1` step on a `defaultdict(int)` modelled as an
insertion-ordered association list. -/
def bump {α : Type} [DecidableEq α] : List (α × Nat) → α → List (α × Nat)
  | [], t => [(t, 1)]
  | (u, n) :: rest, t =>
      if u = t then (u, n + 1) :: rest else (u, n) :: bump rest t

/-- The counting loop of `find_clumps` (src/ori_finder.py:120-124) applied to
a list of tokens. -/
def tally {α : Type} [DecidableEq α] (ts : List α) : List (α × Nat) :=
  ts.foldl bump []

/-- The k-mers extracted by the inner loop of `find_clumps`
(src/ori_finder.py:122-123), in scan order. -/
def kmerList (window : List Char) (k : Nat) : List (List Char) :=
  (List.range (window.length + 1 - k)).map (fun j => pySliceN window j (j + k))

/-- Embedding of `find_clumps` (src/ori_finder.py:96-134).  The dict is an
insertion-ordered association list; a window contributes a key exactly when
its list of frequent k-mers is non-empty. -/
def find_clumps (sequence : List Char) (k window_length min_occurrence : Nat) :
    List ((Nat × Nat) × List (List Char)) :=
  (List.range (sequence.length + 1 - window_length)).filterMap (fun i =>
    let window := pySliceN sequence i (i + window_length)
    let kmer_counts := tally (kmerList window k)
    let frequent_kmers :=
      (kmer_counts.filter (fun p => decide (min_occurrence ≤ p.2))).map Prod.fst
    if frequent_kmers = [] then none
    else some ((i, i + window_length), frequent_kmers))

/-- The result dict of `find_ori_with_clumps` (src/ori_finder.py:165-170). -/
structure AnalysisResult where
  ori_start : Int
  ori_end : Int
  ori_sequence : List Char
  clumps : List ((Nat × Nat) × List (List Char))
  deriving DecidableEq, Repr

/-- Embedding of `find_ori_with_clumps` (src/ori_finder.py:136-170). -/
def find_ori_with_clumps (sequence : List Char) (skew_window flank : Int)
    (k clump_window min_occurrence : Nat) : Except String AnalysisResult :=
  match extract_ori_region sequence skew_window flank with
  | .error e => .error e
  | .ok (ori_region, start, stop) =>
    let clumps := find_clumps ori_region k clump_window min_occurrence
    .ok ⟨start, stop, ori_region, clumps⟩

/-- The skew profile in closed form: one value per full window of `n`
symbols, taken left to right from offset 0. -/
def skewSpec (s : List Char) (n : Nat) : List Int :=
  (List.range (s.length / n)).map (fun j =>
    (((s.drop (j * n)).take n).count 'G' : Int) -
      ((s.drop (j * n)).take n).count 'C')

theorem pyIdx_natCast (L a : Nat) : pyIdx L (a : Int) = min a L := by
  simp [pyIdx]

theorem pySlice_natCast (s : List Char) (a b : Nat) :
    pySlice s (a : Int) (b : Int) = pySliceN s a b := by
  unfold pySlice pySliceN
  rw [pyIdx_natCast, pyIdx_natCast]
  rcases le_or_lt s.length a with h | h
  · rw [min_eq_right h, List.drop_length, List.drop_eq_nil_of_le h]
    simp
  · rw [min_eq_left h.le, List.take_eq_take]
    simp [List.length_drop]
    omega

theorem pyRange_pos_zero (L : Nat) (w : Int) (hw : 0 < w) :
    pyRange 0 ((L : Int) - w + 1) w =
      (List.range (L / w.toNat)).map (fun (j : Nat) => (j : Int) * w) := by
  unfold pyRange
  rw [if_pos hw]
  have h1 : ((L : Int) - w + 1 - 0 + w - 1) = (L : Int) := by ring
  rw [h1]
  have h2 : ((L : Int) / w).toNat = L / w.toNat := by
    have hww : (w.toNat : Int) = w := Int.toNat_of_nonneg hw.le
    rw [← hww]
    exact_mod_cast rfl
  rw [h2]
  exact List.map_congr_left (fun a _ => by ring)

theorem compute_gc_skew_pos (s : List Char) (w : Int) (hw : 0 < w) :
    compute_gc_skew s w = .ok (skewSpec s w.toNat) := by
  unfold compute_gc_skew
  rw [if_neg hw.ne', pyRange_pos_zero s.length w hw]
  unfold skewSpec
  rw [List.map_map]
  refine congrArg _ (List.map_congr_left (fun j _ => ?_))
  have hww : (w.toNat : Int) = w := Int.toNat_of_nonneg hw.le
  have hslice : pySlice s ((j : Int) * w) ((j : Int) * w + w) =
      (s.drop (j * w.toNat)).take w.toNat := by
    have h1 : ((j : Int) * w) = ((j * w.toNat : Nat) : Int) := by
      push_cast [hww]; ring
    have h2 : ((j : Int) * w + w) = ((j * w.toNat + w.toNat : Nat) : Int) := by
      push_cast [hww]; ring
    rw [h2, h1, pySlice_natCast]
    unfold pySliceN
    congr 1
    omega
  simp only [Function.comp, hslice]
  split
  · rename_i hzero
    have hg : (((s.drop (j * w.toNat)).take w.toNat).count 'G') = 0 := by omega
    have hc : (((s.drop (j * w.toNat)).take w.toNat).count 'C') = 0 := by omega
    rw [hg, hc]
    simp
  · rfl

theorem skewSpec_length (s : List Char) (n : Nat) :
    (skewSpec s n).length = s.length / n := by
  simp [skewSpec]

theorem skewSpec_getD (s : List Char) (n j : Nat) (hj : j < s.length / n) :
    (skewSpec s n).getD j 0 =
      (((s.drop (j * n)).take n).count 'G' : Int) -
        ((s.drop (j * n)).take n).count 'C' := by
  have hj' : j < (skewSpec s n).length := by rw [skewSpec_length]; exact hj
  rw [List.getD_eq_getElem _ _ hj']
  simp [skewSpec]

theorem windowAt_length (s : List Char) (n j : Nat) (hn : 0 < n)
    (hj : j < s.length / n) : ((s.drop (j * n)).take n).length = n := by
  have h1 : (j + 1) * n ≤ s.length := (Nat.le_div_iff_mul_le hn).mp hj
  rw [Nat.add_mul, one_mul] at h1
  simp [List.length_take, List.length_drop]
  omega

theorem cumulative_from_length (t : Int) (xs : List Int) :
    (cumulative_from t xs).length = xs.length := by
  induction xs generalizing t with
  | nil => rfl
  | cons v rest ih => simp [cumulative_from, ih]

theorem cumulative_from_getD (t : Int) (xs : List Int) (i : Nat)
    (hi : i < xs.length) :
    (cumulative_from t xs).getD i 0 = t + (xs.take (i + 1)).sum := by
  induction xs generalizing t i with
  | nil => simp at hi
  | cons v rest ih =>
    cases i with
    | zero => simp [cumulative_from]
    | succ i =>
      have hi' : i < rest.length := by simpa using hi
      simp only [cumulative_from, List.getD_cons_succ, List.take_succ_cons,
        List.sum_cons]
      rw [ih (t + v) i hi']
      ring

/-- C5: `cumulative_gc_skew` returns a list of identical length whose element
`i` equals the sum of input elements `0..i` inclusive; for non-empty input the
final element equals the sum of all input elements; the empty input yields the
empty output. -/
theorem C5_cumulative_gc_skew (xs : List Int) :
    (cumulative_gc_skew xs).length = xs.length
  ∧ (∀ i, i < xs.length →
      (cumulative_gc_skew xs).getD i 0 = (xs.take (i + 1)).sum)
  ∧ (xs ≠ [] → (cumulative_gc_skew xs).getD (xs.length - 1) 0 = xs.sum)
  ∧ cumulative_gc_skew [] = [] := by
  refine ⟨cumulative_from_length 0 xs,
    fun i hi => by simpa using cumulative_from_getD 0 xs i hi,
    fun hne => ?_, rfl⟩
  have hlen : 0 < xs.length := List.length_pos.mpr hne
  have h := cumulative_from_getD 0 xs (xs.length - 1) (by omega)
  rw [Nat.sub_add_cancel hlen, List.take_length] at h
  simpa [cumulative_gc_skew] using h

/-- Witness for C5 at the spec's own example `[1, -2, 3, -1]`. -/
theorem C5_witness :
    (cumulative_gc_skew [1, -2, 3, -1]).getD
      (([1, -2, 3, -1] : List Int).length - 1) 0 =
      ([1, -2, 3, -1] : List Int).sum :=
  (C5_cumulative_gc_skew [1, -2, 3, -1]).2.2.1 (by decide)

/-- C4: for positive `w`, `compute_gc_skew` succeeds with exactly
`⌊L / w⌋` values, one per consecutive non-overlapping window of exactly `w`
symbols starting at offset 0; value `j` is `G count − C count` over window
`[j*w, (j+1)*w)`, and is 0 when both counts are 0; when `w > L` the result is
the empty profile (a non-error outcome). -/
theorem C4_compute_gc_skew (s : List Char) (w : Int) (hw : 0 < w) :
    ∃ l, compute_gc_skew s w = .ok l
  ∧ l.length = s.length / w.toNat
  ∧ (∀ j, j < l.length →
      l.getD j 0 = (((s.drop (j * w.toNat)).take w.toNat).count 'G' : Int)
        - ((s.drop (j * w.toNat)).take w.toNat).count 'C')
  ∧ (∀ j, j < l.length → ((s.drop (j * w.toNat)).take w.toNat).length = w.toNat)
  ∧ (∀ j, j < l.length →
      ((s.drop (j * w.toNat)).take w.toNat).count 'G' = 0 →
      ((s.drop (j * w.toNat)).take w.toNat).count 'C' = 0 → l.getD j 0 = 0)
  ∧ ((s.length : Int) < w → l = []) := by
  have hw' : 0 < w.toNat := by omega
  refine ⟨skewSpec s w.toNat, compute_gc_skew_pos s w hw,
    skewSpec_length s w.toNat, ?_, ?_, ?_, ?_⟩
  · intro j hj
    rw [skewSpec_length] at hj
    exact skewSpec_getD s w.toNat j hj
  · intro j hj
    rw [skewSpec_length] at hj
    exact windowAt_length s w.toNat j hw' hj
  · intro j hj hG hC
    rw [skewSpec_length] at hj
    rw [skewSpec_getD s w.toNat j hj, hG, hC]
    simp
  · intro hlt
    have : s.length < w.toNat := by omega
    unfold skewSpec
    rw [Nat.div_eq_of_lt this]
    simp

/-- Witness for C4 at `s = "GCGGA"`, `w = 2`. -/
theorem C4_witness :
    ∃ l, compute_gc_skew "GCGGA".toList 2 = .ok l
  ∧ l.length = "GCGGA".toList.length / (2 : Int).toNat
  ∧ (∀ j, j < l.length →
      l.getD j 0 =
        ((("GCGGA".toList.drop (j * (2 : Int).toNat)).take (2 : Int).toNat).count 'G' : Int)
        - (("GCGGA".toList.drop (j * (2 : Int).toNat)).take (2 : Int).toNat).count 'C')
  ∧ (∀ j, j < l.length →
      (("GCGGA".toList.drop (j * (2 : Int).toNat)).take (2 : Int).toNat).length
        = (2 : Int).toNat)
  ∧ (∀ j, j < l.length →
      (("GCGGA".toList.drop (j * (2 : Int).toNat)).take (2 : Int).toNat).count 'G' = 0 →
      (("GCGGA".toList.drop (j * (2 : Int).toNat)).take (2 : Int).toNat).count 'C' = 0 →
      l.getD j 0 = 0)
  ∧ (("GCGGA".toList.length : Int) < 2 → l = []) :=
  C4_compute_gc_skew "GCGGA".toList 2 (by decide)

/-- The cumulative skew profile computed by `find_ori_position` before
minimum-finding. -/
def cumProfile (s : List Char) (n : Nat) : List Int :=
  cumulative_gc_skew (skewSpec s n)

theorem cumProfile_length (s : List Char) (n : Nat) :
    (cumProfile s n).length = s.length / n := by
  rw [cumProfile, cumulative_gc_skew, cumulative_from_length, skewSpec_length]

theorem int_min?_eq_some_iff {l : List Int} {m : Int} :
    l.min? = some m ↔ m ∈ l ∧ ∀ b ∈ l, m ≤ b := by
  haveI : Std.Antisymm (fun (a b : Int) => a ≤ b) := ⟨fun h h' => le_antisymm h h'⟩
  exact List.min?_eq_some_iff (fun a => le_refl a) (fun a b => min_choice a b)
    (fun a b c => le_min_iff)

theorem min?_of_ne_nil {l : List Int} (h : l ≠ []) : ∃ m, l.min? = some m := by
  cases l with
  | nil => exact absurd rfl h
  | cons a as => exact ⟨as.foldl min a, rfl⟩

/-- Everything `find_ori_position` does on a positive window size and a
non-empty cumulative profile: the minimum `m` exists, `i` is its first index,
and the returned coordinates are `(i*w, i*w + w)` inside the sequence. -/
theorem find_ori_core (s : List Char) (w : Int) (hw : 0 < w)
    (hne : cumProfile s w.toNat ≠ []) :
    ∃ (m : Int) (i : Nat),
      (cumProfile s w.toNat).min? = some m
    ∧ i = (cumProfile s w.toNat).indexOf m
    ∧ i < (cumProfile s w.toNat).length
    ∧ (cumProfile s w.toNat).getD i 0 = m
    ∧ (∀ j, j < (cumProfile s w.toNat).length →
        m ≤ (cumProfile s w.toNat).getD j 0)
    ∧ (∀ j, j < i → m < (cumProfile s w.toNat).getD j 0)
    ∧ find_ori_position s w = .ok ((i : Int) * w, (i : Int) * w + w)
    ∧ 0 ≤ (i : Int) * w
    ∧ (i : Int) * w + w ≤ (s.length : Int) := by
  obtain ⟨m, hm⟩ := min?_of_ne_nil hne
  obtain ⟨hmem, hle⟩ := int_min?_eq_some_iff.mp hm
  refine ⟨m, (cumProfile s w.toNat).indexOf m, hm, rfl, ?_, ?_, ?_, ?_, ?_, ?_, ?_⟩
  · exact List.indexOf_lt_length.mpr hmem
  · have hilen : (cumProfile s w.toNat).indexOf m < (cumProfile s w.toNat).length :=
      List.indexOf_lt_length.mpr hmem
    rw [List.getD_eq_getElem _ _ hilen]
    simpa using List.indexOf_get hilen
  · intro j hj
    rw [List.getD_eq_getElem _ _ hj]
    exact hle _ (List.getElem_mem hj)
  · intro j hj
    have hilen : (cumProfile s w.toNat).indexOf m < (cumProfile s w.toNat).length :=
      List.indexOf_lt_length.mpr hmem
    have hjlen : j < (cumProfile s w.toNat).length := hj.trans hilen
    have hne2 := @List.not_of_lt_findIdx Int (fun x => x == m)
      (cumProfile s w.toNat) j hj
    have hle2 : m ≤ (cumProfile s w.toNat).getD j 0 := by
      rw [List.getD_eq_getElem _ _ hjlen]
      exact hle _ (List.getElem_mem hjlen)
    rw [List.getD_eq_getElem _ _ hjlen] at hle2 ⊢
    simp only [beq_eq_false_iff_ne] at hne2
    exact lt_of_le_of_ne hle2 (Ne.symm hne2)
  · simp only [find_ori_position, compute_gc_skew_pos s w hw]
    have hm' : (cumulative_gc_skew (skewSpec s w.toNat)).min? = some m := hm
    rw [hm']
    rfl
  · positivity
  · have hilen : (cumProfile s w.toNat).indexOf m < (cumProfile s w.toNat).length :=
      List.indexOf_lt_length.mpr hmem
    rw [cumProfile_length] at hilen
    have hw' : 0 < w.toNat := by omega
    have h1 : ((cumProfile s w.toNat).indexOf m + 1) * w.toNat ≤ s.length :=
      (Nat.le_div_iff_mul_le hw').mp hilen
    have hww : (w.toNat : Int) = w := Int.toNat_of_nonneg hw.le
    calc ((cumProfile s w.toNat).indexOf m : Int) * w + w
        = (((cumProfile s w.toNat).indexOf m + 1) * w.toNat : Nat) := by
          push_cast [hww]; ring
      _ ≤ (s.length : Int) := by exact_mod_cast h1

theorem find_ori_position_of_empty (s : List Char) (w : Int) (hw : 0 < w)
    (hemp : cumProfile s w.toNat = []) :
    find_ori_position s w = .error "ValueError: min() arg is an empty sequence" := by
  simp only [find_ori_position, compute_gc_skew_pos s w hw]
  rw [show cumulative_gc_skew (skewSpec s w.toNat) = ([] : List Int) from hemp]
  rfl

/-- C2: for positive `w` with a non-empty cumulative profile,
`find_ori_position` returns `(i*w, i*w + w)` where `i` is the lowest index of
the global minimum of the cumulative profile, and
`0 ≤ start < end ≤ length`, `end − start = w`, `w ∣ start`. -/
theorem C2_find_ori_position (s : List Char) (w : Int) (hw : 0 < w)
    (l : List Int) (hl : compute_gc_skew s w = .ok l)
    (hne : cumulative_gc_skew l ≠ []) :
    ∃ i : Nat,
      i < (cumulative_gc_skew l).length
    ∧ (∀ j, j < (cumulative_gc_skew l).length →
        (cumulative_gc_skew l).getD i 0 ≤ (cumulative_gc_skew l).getD j 0)
    ∧ (∀ j, j < i →
        (cumulative_gc_skew l).getD i 0 < (cumulative_gc_skew l).getD j 0)
    ∧ find_ori_position s w = .ok ((i : Int) * w, (i : Int) * w + w)
    ∧ 0 ≤ (i : Int) * w
    ∧ (i : Int) * w < (i : Int) * w + w
    ∧ (i : Int) * w + w ≤ (s.length : Int)
    ∧ w ∣ (i : Int) * w := by
  have h2 := compute_gc_skew_pos s w hw
  rw [hl] at h2
  have hl' : l = skewSpec s w.toNat := Except.ok.inj h2
  subst hl'
  obtain ⟨m, i, _hm, _hidef, hilen, hget, hmin, hfirst, hok, h0, hend⟩ :=
    find_ori_core s w hw hne
  refine ⟨i, hilen, ?_, ?_, hok, h0, lt_add_of_pos_right _ hw, hend,
    dvd_mul_left w (i : Int)⟩
  · intro j hj
    rw [show (cumulative_gc_skew (skewSpec s w.toNat)).getD i 0 = m from hget]
    exact hmin j hj
  · intro j hj
    rw [show (cumulative_gc_skew (skewSpec s w.toNat)).getD i 0 = m from hget]
    exact hfirst j hj

/-- Witness for C2 at `s = "GGCC"`, `w = 2` (skew `[2, -2]`, cumulative
`[2, 0]`, minimum at index 1, result `(2, 4)`). -/
theorem C2_witness :
    ∃ i : Nat,
      i < (cumulative_gc_skew [2, -2]).length
    ∧ (∀ j, j < (cumulative_gc_skew [2, -2]).length →
        (cumulative_gc_skew [2, -2]).getD i 0 ≤ (cumulative_gc_skew [2, -2]).getD j 0)
    ∧ (∀ j, j < i →
        (cumulative_gc_skew [2, -2]).getD i 0 < (cumulative_gc_skew [2, -2]).getD j 0)
    ∧ find_ori_position "GGCC".toList 2 = .ok ((i : Int) * 2, (i : Int) * 2 + 2)
    ∧ 0 ≤ (i : Int) * 2
    ∧ (i : Int) * 2 < (i : Int) * 2 + 2
    ∧ (i : Int) * 2 + 2 ≤ ("GGCC".toList.length : Int)
    ∧ (2 : Int) ∣ (i : Int) * 2 :=
  C2_find_ori_position "GGCC".toList 2 (by decide) [2, -2] rfl (by decide)

/-- C9: for positive `w`, `find_ori_position` fails with the empty-profile
`ValueError` exactly on an empty cumulative profile, and returns a coordinate
pair whenever the profile is non-empty. -/
theorem C9_find_ori_position_empty_profile (s : List Char) (w : Int)
    (hw : 0 < w) (l : List Int) (hl : compute_gc_skew s w = .ok l) :
    (cumulative_gc_skew l = [] →
      find_ori_position s w = .error "ValueError: min() arg is an empty sequence")
  ∧ (cumulative_gc_skew l ≠ [] → ∃ p, find_ori_position s w = .ok p) := by
  have h2 := compute_gc_skew_pos s w hw
  rw [hl] at h2
  have hl' : l = skewSpec s w.toNat := Except.ok.inj h2
  subst hl'
  constructor
  · intro hemp
    exact find_ori_position_of_empty s w hw hemp
  · intro hne
    obtain ⟨m, i, _, _, _, _, _, _, hok, _, _⟩ := find_ori_core s w hw hne
    exact ⟨_, hok⟩

/-- Witness for C9: the one-character sequence `"A"` with `w = 2` has an empty
profile and `find_ori_position` raises. -/
theorem C9_witness :
    find_ori_position "A".toList 2 =
      .error "ValueError: min() arg is an empty sequence" :=
  (C9_find_ori_position_empty_profile "A".toList 2 (by decide) [] rfl).1 rfl

theorem pyIdx_nonneg (L : Nat) (i : Int) (h0 : 0 ≤ i) (hL : i ≤ (L : Int)) :
    pyIdx L i = i.toNat := by
  unfold pyIdx
  rw [if_neg (by omega)]
  omega

theorem extract_ok_inv (s : List Char) (w flank : Int) {sub : List Char}
    {st en : Int} (h : extract_ori_region s w flank = .ok (sub, st, en)) :
    ∃ a b, find_ori_position s w = .ok (a, b) := by
  unfold extract_ori_region at h
  cases hfo : find_ori_position s w with
  | error e => rw [hfo] at h; exact absurd h (by simp)
  | ok p => exact ⟨p.1, p.2, rfl⟩

/-- Everything `extract_ori_region` does once `find_ori_position` has
succeeded with `(a, b)`: the clamped coordinates, the slice, its length, and
its characters. -/
theorem extract_core (s : List Char) (w flank : Int) (hw : 0 < w)
    (hf : 0 < flank) {a b : Int}
    (hpos : find_ori_position s w = .ok (a, b)) :
    ∃ sub st en, extract_ori_region s w flank = .ok (sub, st, en)
    ∧ st = max 0 (a + w.fdiv 2 - flank)
    ∧ en = min (s.length : Int) (a + w.fdiv 2 + flank)
    ∧ (sub.length : Int) = en - st
    ∧ 0 ≤ st ∧ st < en ∧ en ≤ (s.length : Int)
    ∧ sub = (s.drop st.toNat).take (en.toNat - st.toNat)
    ∧ (∀ j : Nat, j < sub.length → sub.getD j ' ' = s.getD (st.toNat + j) ' ') := by
  -- bounds on `a` from the success of `find_ori_position`
  have habounds : 0 ≤ a ∧ a + w ≤ (s.length : Int) := by
    rcases eq_or_ne (cumProfile s w.toNat) [] with hemp | hne
    · rw [find_ori_position_of_empty s w hw hemp] at hpos
      exact absurd hpos (by simp)
    · obtain ⟨m, i, _, _, _, _, _, _, hok, h0, hend⟩ := find_ori_core s w hw hne
      rw [hok] at hpos
      obtain ⟨h1, _⟩ := Prod.mk.injEq .. ▸ Except.ok.inj hpos
      rw [h1] at h0 hend
      exact ⟨h0, hend⟩
  obtain ⟨ha0, haw⟩ := habounds
  have hfd : w.fdiv 2 = w / 2 := Int.fdiv_eq_ediv _ (by norm_num)
  have hok2 : extract_ori_region s w flank =
      .ok (pySlice s (max 0 (a + w.fdiv 2 - flank))
            (min (s.length : Int) (a + w.fdiv 2 + flank)),
           max 0 (a + w.fdiv 2 - flank),
           min (s.length : Int) (a + w.fdiv 2 + flank)) := by
    unfold extract_ori_region
    rw [hpos]
  have hst0 : (0 : Int) ≤ max 0 (a + w.fdiv 2 - flank) := le_max_left _ _
  have hstL : max 0 (a + w.fdiv 2 - flank) ≤ (s.length : Int) := by
    rw [hfd]; omega
  have hen0 : (0 : Int) ≤ min (s.length : Int) (a + w.fdiv 2 + flank) := by
    rw [hfd]; omega
  have henL : min (s.length : Int) (a + w.fdiv 2 + flank) ≤ (s.length : Int) :=
    min_le_left _ _
  have hsten : max 0 (a + w.fdiv 2 - flank) <
      min (s.length : Int) (a + w.fdiv 2 + flank) := by
    rw [hfd]; omega
  have hpy1 : pyIdx s.length (max 0 (a + w.fdiv 2 - flank)) =
      (max 0 (a + w.fdiv 2 - flank)).toNat := pyIdx_nonneg _ _ hst0 hstL
  have hpy2 : pyIdx s.length (min (s.length : Int) (a + w.fdiv 2 + flank)) =
      (min (s.length : Int) (a + w.fdiv 2 + flank)).toNat :=
    pyIdx_nonneg _ _ hen0 henL
  have hsub : pySlice s (max 0 (a + w.fdiv 2 - flank))
      (min (s.length : Int) (a + w.fdiv 2 + flank)) =
      (s.drop (max 0 (a + w.fdiv 2 - flank)).toNat).take
        ((min (s.length : Int) (a + w.fdiv 2 + flank)).toNat -
          (max 0 (a + w.fdiv 2 - flank)).toNat) := by
    unfold pySlice
    rw [hpy1, hpy2]
  have hlen : (pySlice s (max 0 (a + w.fdiv 2 - flank))
      (min (s.length : Int) (a + w.fdiv 2 + flank))).length =
      (min (s.length : Int) (a + w.fdiv 2 + flank)).toNat -
        (max 0 (a + w.fdiv 2 - flank)).toNat := by
    rw [hsub]
    simp only [List.length_take, List.length_drop]
    omega
  refine ⟨_, _, _, hok2, rfl, rfl, ?_, hst0, hsten, henL, hsub, ?_⟩
  · rw [hlen]; omega
  · intro j hj
    rw [hlen] at hj
    have hjL : (max 0 (a + w.fdiv 2 - flank)).toNat + j < s.length := by omega
    rw [hsub, List.getD_eq_getElem _ _ (by
        simp only [List.length_take, List.length_drop]; omega),
      List.getD_eq_getElem _ _ hjL]
    rw [List.getElem_take, List.getElem_drop]

/-- C3: once `find_ori_position` has succeeded with `(a, b)`,
`extract_ori_region` returns the region at `center = a + w // 2` clamped to
the sequence bounds, with the stated length and ordering facts. -/
theorem C3_extract_ori_region (s : List Char) (w flank : Int) (hw : 0 < w)
    (hf : 0 < flank) (a b : Int)
    (hpos : find_ori_position s w = .ok (a, b)) :
    ∃ sub st en, extract_ori_region s w flank = .ok (sub, st, en)
    ∧ st = max 0 (a + w.fdiv 2 - flank)
    ∧ en = min (s.length : Int) (a + w.fdiv 2 + flank)
    ∧ (sub.length : Int) = en - st
    ∧ 0 ≤ st ∧ st < en ∧ en ≤ (s.length : Int) := by
  obtain ⟨sub, st, en, hok, h1, h2, h3, h4, h5, h6, _, _⟩ :=
    extract_core s w flank hw hf hpos
  exact ⟨sub, st, en, hok, h1, h2, h3, h4, h5, h6⟩

/-- Witness for C3 at `s = "GGCC"`, `w = 2`, `flank = 1`. -/
theorem C3_witness :
    ∃ sub st en, extract_ori_region "GGCC".toList 2 1 = .ok (sub, st, en)
    ∧ st = max 0 (2 + (2 : Int).fdiv 2 - 1)
    ∧ en = min ("GGCC".toList.length : Int) (2 + (2 : Int).fdiv 2 + 1)
    ∧ (sub.length : Int) = en - st
    ∧ 0 ≤ st ∧ st < en ∧ en ≤ ("GGCC".toList.length : Int) :=
  C3_extract_ori_region "GGCC".toList 2 1 (by decide) (by decide) 2 4 rfl

/-- C10: the subsequence returned by `extract_ori_region` is character-for-
character the original sequence restricted to `[start, end)`. -/
theorem C10_extract_region_identity (s : List Char) (w flank : Int)
    (hw : 0 < w) (hf : 0 < flank) (sub : List Char) (st en : Int)
    (h : extract_ori_region s w flank = .ok (sub, st, en)) :
    sub = (s.drop st.toNat).take (en.toNat - st.toNat)
  ∧ (∀ j : Nat, j < sub.length → sub.getD j ' ' = s.getD (st.toNat + j) ' ') := by
  obtain ⟨a, b, hpos⟩ := extract_ok_inv s w flank h
  obtain ⟨sub', st', en', hok, _, _, _, _, _, _, hsub, hchar⟩ :=
    extract_core s w flank hw hf hpos
  rw [h] at hok
  have hte := Except.ok.inj hok
  simp only [Prod.mk.injEq] at hte
  obtain ⟨h1, h2, h3⟩ := hte
  subst h1 h2 h3
  exact ⟨hsub, hchar⟩

/-- Witness for C10 at `s = "GGCC"`, `w = 2`, `flank = 1`
(region `"CC"` at `[2, 4)`). -/
theorem C10_witness :
    "CC".toList =
      ("GGCC".toList.drop (2 : Int).toNat).take ((4 : Int).toNat - (2 : Int).toNat)
  ∧ (∀ j : Nat, j < "CC".toList.length →
      "CC".toList.getD j ' ' = "GGCC".toList.getD ((2 : Int).toNat + j) ' ') :=
  C10_extract_region_identity "GGCC".toList 2 1 (by decide) (by decide)
    "CC".toList 2 4 rfl

/-- Dict access used only in proofs: the count stored for key `t`, 0 when the
key is absent. -/
def tallyCount {α : Type} [DecidableEq α] : List (α × Nat) → α → Nat
  | [], _ => 0
  | (u, n) :: rest, t => if u = t then n else tallyCount rest t

theorem keys_bump {α : Type} [DecidableEq α] (acc : List (α × Nat)) (t : α) :
    (bump acc t).map Prod.fst =
      if t ∈ acc.map Prod.fst then acc.map Prod.fst
      else acc.map Prod.fst ++ [t] := by
  induction acc with
  | nil => simp [bump]
  | cons p rest ih =>
    obtain ⟨u, n⟩ := p
    by_cases h : u = t
    · subst h
      simp [bump]
    · rcases Decidable.em (t ∈ rest.map Prod.fst) with h2 | h2 <;>
        simp [bump, if_neg h, ih, h2, Ne.symm h]

theorem tallyCount_bump {α : Type} [DecidableEq α] (acc : List (α × Nat))
    (t u : α) :
    tallyCount (bump acc t) u =
      if u = t then tallyCount acc t + 1 else tallyCount acc u := by
  induction acc with
  | nil =>
    by_cases h : u = t
    · subst h; simp [bump, tallyCount]
    · simp [bump, tallyCount, h, Ne.symm h]
  | cons p rest ih =>
    obtain ⟨v, m0⟩ := p
    by_cases hvt : v = t
    · subst hvt
      by_cases hu : u = v
      · subst hu; simp [bump, tallyCount]
      · simp [bump, tallyCount, hu, Ne.symm hu]
    · by_cases hu : u = v
      · subst hu
        simp [bump, tallyCount, hvt, Ne.symm hvt]
      · by_cases hut : u = t
        · subst hut
          simp [bump, tallyCount, hvt, Ne.symm hu, ih]
        · simp [bump, tallyCount, hvt, Ne.symm hu, hut, ih]

theorem tally_append_singleton {α : Type} [DecidableEq α] (ts : List α)
    (u : α) : tally (ts ++ [u]) = bump (tally ts) u := by
  simp [tally, List.foldl_append]

theorem tally_keys_nodup {α : Type} [DecidableEq α] (ts : List α) :
    ((tally ts).map Prod.fst).Nodup := by
  induction ts using List.reverseRecOn with
  | nil => simp [tally]
  | append_singleton ts u ih =>
    rw [tally_append_singleton, keys_bump]
    split
    · exact ih
    · rename_i hnot
      simp [List.nodup_append, ih, hnot]

theorem keys_tally {α : Type} [DecidableEq α] (ts : List α) (t : α) :
    t ∈ (tally ts).map Prod.fst ↔ t ∈ ts := by
  induction ts using List.reverseRecOn with
  | nil => simp [tally]
  | append_singleton ts u ih =>
    rw [tally_append_singleton, keys_bump]
    split
    · rename_i hmem
      simp only [List.mem_append, List.mem_singleton, ih.symm]
      constructor
      · exact Or.inl
      · rintro (h | rfl)
        · exact h
        · exact hmem
    · simp [ih]

theorem tallyCount_tally {α : Type} [DecidableEq α] (ts : List α) (t : α) :
    tallyCount (tally ts) t = ts.count t := by
  induction ts using List.reverseRecOn with
  | nil => simp [tally, tallyCount]
  | append_singleton ts u ih =>
    rw [tally_append_singleton, tallyCount_bump, List.count_append]
    by_cases h : t = u
    · subst h; simp [ih]
    · simp [h, ih, List.count_singleton, Ne.symm h]

theorem mem_iff_tallyCount {α : Type} [DecidableEq α] (acc : List (α × Nat))
    (hnd : (acc.map Prod.fst).Nodup) (t : α) (n : Nat) :
    (t, n) ∈ acc ↔ (t ∈ acc.map Prod.fst ∧ tallyCount acc t = n) := by
  induction acc with
  | nil => simp
  | cons p rest ih =>
    obtain ⟨v, m0⟩ := p
    simp only [List.map_cons, List.nodup_cons] at hnd
    obtain ⟨hv, hndr⟩ := hnd
    have ih' := ih hndr
    by_cases h : v = t
    · subst h
      constructor
      · intro hm
        rcases List.mem_cons.mp hm with he | hr
        · injection he with _ h2
          subst h2
          exact ⟨List.mem_cons_self _ _, by simp [tallyCount]⟩
        · exact absurd (List.mem_map_of_mem Prod.fst hr) hv
      · rintro ⟨_, hc⟩
        have hn : n = m0 := by simpa [tallyCount] using hc.symm
        subst hn
        exact List.mem_cons_self _ _
    · constructor
      · intro hm
        rcases List.mem_cons.mp hm with he | hr
        · exfalso
          injection he with h1 _
          exact h h1.symm
        · obtain ⟨hmem, hc⟩ := ih'.mp hr
          exact ⟨List.mem_cons_of_mem _ hmem, by simpa [tallyCount, h] using hc⟩
      · rintro ⟨hmem, hc⟩
        rcases List.mem_cons.mp hmem with h1 | hmem'
        · exact absurd h1.symm h
        · have hc' : tallyCount rest t = n := by simpa [tallyCount, h] using hc
          exact List.mem_cons_of_mem _ (ih'.mpr ⟨hmem', hc'⟩)

/-- Membership in the `defaultdict` built by the counting loop: key `t` with
value `n` is present exactly when `t` occurs in the token list and `n` is its
multiplicity. -/
theorem tally_mem {α : Type} [DecidableEq α] (ts : List α) (t : α) (n : Nat) :
    (t, n) ∈ tally ts ↔ (t ∈ ts ∧ n = ts.count t) := by
  rw [mem_iff_tallyCount (tally ts) (tally_keys_nodup ts) t n, keys_tally,
    tallyCount_tally]
  tauto

/-- Number of (possibly overlapping) occurrences of `t` as a length-`k`
substring of `window`, following the claim's reference definition. -/
def kmerOccCount (window : List Char) (k : Nat) (t : List Char) : Nat :=
  ((List.range (window.length + 1 - k)).filter
    (fun j => decide (pySliceN window j (j + k) = t))).length

/-- The claim's reference notion of a frequent k-mer of a window: a length-`k`
substring whose occurrence count within the window reaches `mo`. -/
def refFrequent (window : List Char) (k mo : Nat) (t : List Char) : Prop :=
  (∃ j, j + k ≤ window.length ∧ pySliceN window j (j + k) = t) ∧
    mo ≤ kmerOccCount window k t

theorem mem_kmerList (w : List Char) (k : Nat) (t : List Char) :
    t ∈ kmerList w k ↔ ∃ j, j + k ≤ w.length ∧ pySliceN w j (j + k) = t := by
  simp only [kmerList, List.mem_map, List.mem_range]
  constructor
  · rintro ⟨j, hj, rfl⟩
    exact ⟨j, by omega, rfl⟩
  · rintro ⟨j, hj, rfl⟩
    exact ⟨j, by omega, rfl⟩

theorem count_kmerList (w : List Char) (k : Nat) (t : List Char) :
    @List.count (List Char) instBEqOfDecidableEq t (kmerList w k) =
      kmerOccCount w k t := by
  show List.countP (fun x => decide (x = t)) (kmerList w k) = _
  rw [kmerList, kmerOccCount, List.countP_map, List.countP_eq_length_filter]
  rfl

theorem mem_frequent_list (window : List Char) (k mo : Nat) (t : List Char) :
    t ∈ ((tally (kmerList window k)).filter
        (fun p => decide (mo ≤ p.2))).map Prod.fst ↔
      refFrequent window k mo t := by
  simp only [List.mem_map, List.mem_filter]
  constructor
  · rintro ⟨⟨t', n⟩, ⟨hmem, hmo⟩, rfl⟩
    obtain ⟨hts, hn⟩ := (tally_mem _ _ _).mp hmem
    refine ⟨(mem_kmerList _ _ _).mp hts, ?_⟩
    rw [← count_kmerList]
    subst hn
    simpa using hmo
  · rintro ⟨hex, hcnt⟩
    have hts : t ∈ kmerList window k := (mem_kmerList _ _ _).mpr hex
    refine ⟨(t, @List.count (List Char) instBEqOfDecidableEq t (kmerList window k)),
      ⟨(tally_mem _ _ _).mpr ⟨hts, rfl⟩, ?_⟩, rfl⟩
    simpa [count_kmerList] using hcnt

theorem find_clumps_mem_iff (s : List Char) (k wl mo : Nat) (a b : Nat)
    (ts : List (List Char)) :
    (((a, b), ts) ∈ find_clumps s k wl mo) ↔
      (a + wl ≤ s.length ∧ b = a + wl ∧
       ts = ((tally (kmerList (pySliceN s a (a + wl)) k)).filter
              (fun p => decide (mo ≤ p.2))).map Prod.fst ∧ ts ≠ []) := by
  unfold find_clumps
  rw [List.mem_filterMap]
  constructor
  · rintro ⟨i, hi, hf⟩
    rw [List.mem_range] at hi
    simp only [] at hf
    split at hf
    · exact absurd hf (by simp)
    · rename_i hne
      have h := Option.some.inj hf
      simp only [Prod.mk.injEq] at h
      obtain ⟨⟨h1, h2⟩, h3⟩ := h
      subst h1
      subst h2
      subst h3
      exact ⟨by omega, rfl, rfl, hne⟩
  · rintro ⟨hlen, rfl, rfl, hne⟩
    refine ⟨a, List.mem_range.mpr (by omega), ?_⟩
    simp only []
    rw [if_neg hne]

theorem find_clumps_keys_nodup (s : List Char) (k wl mo : Nat) :
    ((find_clumps s k wl mo).map Prod.fst).Nodup := by
  unfold find_clumps
  rw [List.map_filterMap]
  refine List.Nodup.filterMap ?_ (List.nodup_range _)
  intro a a' p hp hp'
  simp only [Option.mem_def] at hp hp'
  have h1 : p.1 = a := by
    split at hp
    · contradiction
    · simp only [Option.map_some'] at hp
      have := Option.some.inj hp
      rw [← this]
  have h2 : p.1 = a' := by
    split at hp'
    · contradiction
    · simp only [Option.map_some'] at hp'
      have := Option.some.inj hp'
      rw [← this]
  omega

theorem find_clumps_eq_nil_of_long_window (s : List Char) (k wl mo : Nat)
    (h : s.length < wl) : find_clumps s k wl mo = [] := by
  unfold find_clumps
  rw [show s.length + 1 - wl = 0 from by omega]
  rfl

theorem find_clumps_eq_nil_of_long_kmer (s : List Char) (k wl mo : Nat)
    (h : wl < k) : find_clumps s k wl mo = [] := by
  unfold find_clumps
  rw [List.filterMap_eq_nil_iff]
  intro i _
  have hwin : (pySliceN s i (i + wl)).length ≤ wl := by
    simp only [pySliceN, List.length_take, List.length_drop]
    omega
  have hkl : kmerList (pySliceN s i (i + wl)) k = [] := by
    unfold kmerList
    rw [show (pySliceN s i (i + wl)).length + 1 - k = 0 from by omega]
    rfl
  simp [hkl, tally]

/-- C1: `find_clumps` agrees with the reference definition: it scans every
unit-stride window `[a, a + wl)` inside the sequence, records the key
`(a, a + wl)` exactly when the window owns at least one frequent k-mer, maps
it to exactly the set of frequent k-mers of that window, has no duplicate or
other keys, and returns the empty map when `wl > len(s)` or `k > wl`. -/
theorem C1_find_clumps (s : List Char) (k wl mo : Nat) :
    (∀ a b ts, ((a, b), ts) ∈ find_clumps s k wl mo →
      b = a + wl ∧ a + wl ≤ s.length ∧ ts ≠ [] ∧
      ∀ t, t ∈ ts ↔ refFrequent (pySliceN s a (a + wl)) k mo t)
  ∧ (∀ a, a + wl ≤ s.length →
      (∃ t, refFrequent (pySliceN s a (a + wl)) k mo t) →
      ∃ ts, ((a, a + wl), ts) ∈ find_clumps s k wl mo)
  ∧ ((find_clumps s k wl mo).map Prod.fst).Nodup
  ∧ (s.length < wl → find_clumps s k wl mo = [])
  ∧ (wl < k → find_clumps s k wl mo = []) := by
  refine ⟨?_, ?_, find_clumps_keys_nodup s k wl mo,
    find_clumps_eq_nil_of_long_window s k wl mo,
    find_clumps_eq_nil_of_long_kmer s k wl mo⟩
  · intro a b ts hmem
    obtain ⟨hlen, hb, hts, hne⟩ := (find_clumps_mem_iff s k wl mo a b ts).mp hmem
    refine ⟨hb, hlen, hne, ?_⟩
    intro t
    rw [hts]
    exact mem_frequent_list (pySliceN s a (a + wl)) k mo t
  · intro a hlen ⟨t, href⟩
    have hmem : t ∈ ((tally (kmerList (pySliceN s a (a + wl)) k)).filter
        (fun p => decide (mo ≤ p.2))).map Prod.fst :=
      (mem_frequent_list _ _ _ _).mpr href
    exact ⟨_, (find_clumps_mem_iff s k wl mo a (a + wl) _).mpr
      ⟨hlen, rfl, rfl, List.ne_nil_of_mem hmem⟩⟩

/-- Witness for C1: on `"AAAA"` with `k = 1`, `wl = 3`, `mo = 2` the key
`(0, 3)` is present. -/
theorem C1_witness :
    ∃ ts, ((0, 3), ts) ∈ find_clumps "AAAA".toList 1 3 2 :=
  (C1_find_clumps "AAAA".toList 1 3 2).2.1 0 (by decide)
    ⟨['A'], ⟨0, by decide, rfl⟩, by decide⟩

theorem pipeline_of_extract (s : List Char) (w flank : Int) (k cw mo : Nat)
    {region : List Char} {st en : Int}
    (h : extract_ori_region s w flank = .ok (region, st, en)) :
    find_ori_with_clumps s w flank k cw mo =
      .ok ⟨st, en, region, find_clumps region k cw mo⟩ := by
  unfold find_ori_with_clumps
  rw [h]

/-- C6: on success, `find_ori_with_clumps` returns exactly the record
assembled from `extract_ori_region` and `find_clumps` run on the region;
`ori_start`/`ori_end` are the absolute coordinates while every clump key is
relative to the region (bounded by its length), with no normalization. -/
theorem C6_find_ori_with_clumps (s : List Char) (w flank : Int)
    (k cw mo : Nat) (r : AnalysisResult)
    (h : find_ori_with_clumps s w flank k cw mo = .ok r) :
    ∃ region st en, extract_ori_region s w flank = .ok (region, st, en)
    ∧ r.ori_start = st ∧ r.ori_end = en ∧ r.ori_sequence = region
    ∧ r.clumps = find_clumps region k cw mo
    ∧ (∀ p ∈ r.clumps, p.1.2 = p.1.1 + cw ∧ p.1.1 + cw ≤ region.length) := by
  unfold find_ori_with_clumps at h
  cases hex : extract_ori_region s w flank with
  | error e => rw [hex] at h; exact absurd h (by simp)
  | ok tpl =>
    obtain ⟨region, st, en⟩ := tpl
    rw [hex] at h
    have hr : (⟨st, en, region, find_clumps region k cw mo⟩ : AnalysisResult)
        = r := Except.ok.inj h
    subst hr
    refine ⟨region, st, en, rfl, rfl, rfl, rfl, rfl, ?_⟩
    intro p hp
    obtain ⟨⟨a, b⟩, ts⟩ := p
    obtain ⟨hlen, hb, _, _⟩ := (find_clumps_mem_iff region k cw mo a b ts).mp hp
    exact ⟨hb, hlen⟩

/-- Witness for C6 at `s = "GGCC"`, `w = 2`, `flank = 1`, `k = 1`, `cw = 1`,
`mo = 1`. -/
theorem C6_witness :
    ∃ region st en,
      extract_ori_region "GGCC".toList 2 1 = .ok (region, st, en)
    ∧ (AnalysisResult.mk 2 4 "CC".toList
        [((0, 1), [['C']]), ((1, 2), [['C']])]).ori_start = st
    ∧ (AnalysisResult.mk 2 4 "CC".toList
        [((0, 1), [['C']]), ((1, 2), [['C']])]).ori_end = en
    ∧ (AnalysisResult.mk 2 4 "CC".toList
        [((0, 1), [['C']]), ((1, 2), [['C']])]).ori_sequence = region
    ∧ (AnalysisResult.mk 2 4 "CC".toList
        [((0, 1), [['C']]), ((1, 2), [['C']])]).clumps = find_clumps region 1 1 1
    ∧ (∀ p ∈ (AnalysisResult.mk 2 4 "CC".toList
        [((0, 1), [['C']]), ((1, 2), [['C']])]).clumps,
        p.1.2 = p.1.1 + 1 ∧ p.1.1 + 1 ≤ region.length) :=
  C6_find_ori_with_clumps "GGCC".toList 2 1 1 1 1
    ⟨2, 4, "CC".toList, [((0, 1), [['C']]), ((1, 2), [['C']])]⟩ rfl

/-- Counterexample to C7 as stated: the valid non-empty sequence `"A"` with
positive tunable parameters makes the pipeline raise (empty skew profile)
instead of returning a record. -/
theorem C7_counterexample :
    "A".toList ≠ [] ∧
    find_ori_with_clumps "A".toList 2 1 1 1 1 =
      .error "ValueError: min() arg is an empty sequence" :=
  ⟨by decide, rfl⟩

/-- C7 (amended): for every non-empty sequence whose length is at least
`skew_window`, with positive window sizes and flank, the pipeline succeeds
and returns a non-empty `ori_sequence`, `ori_start < ori_end`, and only clump
keys `(s, e)` with `e > s`. -/
theorem C7_pipeline_amended (s : List Char) (w flank : Int) (k cw mo : Nat)
    (hw : 0 < w) (hL : w ≤ (s.length : Int)) (hf : 0 < flank)
    (hcw : 0 < cw) :
    ∃ r, find_ori_with_clumps s w flank k cw mo = .ok r
    ∧ r.ori_sequence ≠ []
    ∧ r.ori_start < r.ori_end
    ∧ (∀ p ∈ r.clumps, p.1.1 < p.1.2) := by
  have hw' : 0 < w.toNat := by omega
  have hwL : w.toNat ≤ s.length := by omega
  have hne : cumProfile s w.toNat ≠ [] := by
    intro hnil
    have hlen := cumProfile_length s w.toNat
    rw [hnil] at hlen
    have h1 : 1 ≤ s.length / w.toNat :=
      (Nat.le_div_iff_mul_le hw').mpr (by omega)
    simp at hlen
    omega
  obtain ⟨m, i, _, _, _, _, _, _, hok, _, _⟩ := find_ori_core s w hw hne
  obtain ⟨sub, st, en, hex, _, _, hlen, hst0, hsten, henL, _, _⟩ :=
    extract_core s w flank hw hf hok
  refine ⟨⟨st, en, sub, find_clumps sub k cw mo⟩,
    pipeline_of_extract s w flank k cw mo hex, ?_, hsten, ?_⟩
  · intro hnil
    have hnil' : sub = [] := hnil
    rw [hnil'] at hlen
    simp at hlen
    omega
  · intro p hp
    obtain ⟨⟨a, b⟩, ts⟩ := p
    obtain ⟨_, hb, _, _⟩ := (find_clumps_mem_iff sub k cw mo a b ts).mp hp
    simp only [hb]
    omega

/-- Witness for the amended C7 at `s = "G"`, all parameters 1. -/
theorem C7_amended_witness :
    ∃ r, find_ori_with_clumps "G".toList 1 1 1 1 1 = .ok r
    ∧ r.ori_sequence ≠ []
    ∧ r.ori_start < r.ori_end
    ∧ (∀ p ∈ r.clumps, p.1.1 < p.1.2) :=
  C7_pipeline_amended "G".toList 1 1 1 1 1 (by decide) (by decide)
    (by decide) (by decide)

/-- Counterexample to C8 as stated: `find_clumps` with `k = 0` returns a
populated map instead of raising, and `compute_gc_skew` with a negative
window size returns `[]` instead of raising. -/
theorem C8_counterexample :
    find_clumps "AAAA".toList 0 2 1 =
      [((0, 2), [[]]), ((1, 3), [[]]), ((2, 4), [[]])]
  ∧ compute_gc_skew "ACGT".toList (-1) = .ok [] :=
  ⟨rfl, rfl⟩

/-- C8 (amended): no component validates its arguments.  `compute_gc_skew`
raises only for `window_size = 0` (the `ValueError` comes from `range`
construction, before the loop body, not from an explicit check), returns `[]`
without raising for every negative `window_size`, and `find_clumps` never
raises: with `k = 0` it returns a populated map. -/
theorem C8_no_validation_amended (s : List Char) (w : Int) :
    (w = 0 → compute_gc_skew s w =
      .error "ValueError: range() arg 3 must not be zero")
  ∧ (w < 0 → compute_gc_skew s w = .ok [])
  ∧ find_clumps "AAAA".toList 0 2 1 =
      [((0, 2), [[]]), ((1, 3), [[]]), ((2, 4), [[]])] := by
  refine ⟨?_, ?_, rfl⟩
  · intro h
    subst h
    rfl
  · intro h
    unfold compute_gc_skew
    rw [if_neg (by omega)]
    have hpr : pyRange 0 ((s.length : Int) - w + 1) w = [] := by
      unfold pyRange
      rw [if_neg (by omega), if_pos h]
      have hnum : (0 - ((s.length : Int) - w + 1) + (-w) - 1) =
          -(s.length : Int) - 2 := by ring
      rw [hnum]
      have hneg : (-(s.length : Int) - 2) / (-w) < 0 :=
        Int.ediv_neg' (by omega) (by omega)
      rw [Int.toNat_eq_zero.mpr hneg.le]
      rfl
    rw [hpr]
    rfl

/-- Witness for the amended C8 at `w = -1` and `w = 0`. -/
theorem C8_amended_witness :
    compute_gc_skew "ACGT".toList 0 =
      .error "ValueError: range() arg 3 must not be zero"
  ∧ compute_gc_skew "ACGT".toList (-1) = .ok [] :=
  ⟨(C8_no_validation_amended "ACGT".toList 0).1 rfl,
   (C8_no_validation_amended "ACGT".toList (-1)).2.1 (by decide)⟩

example : pyRange 0 8 3 = [0, 3, 6] := by decide
example : pyRange 0 (-3) 1 = [] := by decide
example : pySlice "ABCDE".toList 1 3 = "BC".toList := by decide
example : pySlice "ABCDE".toList 0 (-2) = "ABC".toList := by decide
example : compute_gc_skew "GCGGA".toList 2 = .ok [0, 2] := rfl
example : cumulative_gc_skew [1, -2, 3, -1] = [1, -1, 2, 1] := by decide
example : find_ori_position "GGCC".toList 2 = .ok (2, 4) := rfl

end PlasmidMaker
